import Mathlib

/-!
Verification development for the Football-Stat-Visualizer program
(src/football_stat_visualizer.py).

The dataset is a list of entries `(name, goals)`.  The two animated sorting
procedures `bubble_sort` and `insertion_sort` mutate that list in place and
yield once per swap (bubble) respectively once per outer iteration
(insertion); here they are modelled as pure functions returning the final
list together with the comparison / swap / yield / shift counts that the
Python generators produce.  The geometry derivation of
`DrawInformation.set_list`, the API adapter functions `search_team` and
`fetch_players_by_goals`, and the key handling of the `main` event loop are
embedded as well.
-/

namespace FSV

/-- A dataset entry: `(player name, goal count)`, as produced by
`fetch_players_by_goals` / `load_offline_data`. -/
abbrev Entry := String × Int

/-! ### Bubble sort (`bubble_sort`, lines 263-276)

The Python code is

```
for i in range(len(lst) - 1):
    for j in range(len(lst) - 1 - i):
        num1 = lst[j][1]
        num2 = lst[j + 1][1]
        if (num1 > num2 and ascending) or (num1 < num2 and not ascending):
            lst[j], lst[j + 1] = lst[j + 1], lst[j]
            yield True
```

Pass `i` performs exactly `len - 1 - i` adjacent comparisons, carrying the
swapped element forward.  `bubblePass asc m l` is the inner loop with a
budget of `m` comparisons starting at the head of `l`; `bubbleRun asc k l`
runs the passes with budgets `k, k-1, ..., 1` in that order. -/

/-- The swap condition `(num1 > num2 and ascending) or (num1 < num2 and not
ascending)` for the adjacent pair `a = lst[j]`, `b = lst[j+1]`. -/
def swapCond (asc : Bool) (a b : Entry) : Bool :=
  (decide (b.2 < a.2) && asc) || (decide (a.2 < b.2) && !asc)

/-- Result of (part of) a bubble-sort run: the final list, the number of
executed comparisons, and the number of performed swaps.  The generator
yields exactly once per swap. -/
structure BubbleResult where
  lst : List Entry
  comps : Nat
  swaps : Nat
  deriving Repr, DecidableEq

/-- One inner pass of `bubble_sort` with a budget of `m` comparisons:
compares (and possibly swaps) adjacent pairs from the head of the list,
exactly as the loop `for j in range(m)` over indices does. -/
def bubblePass (asc : Bool) : Nat → List Entry → BubbleResult
  | 0, l => ⟨l, 0, 0⟩
  | _ + 1, [] => ⟨[], 0, 0⟩
  | _ + 1, [a] => ⟨[a], 0, 0⟩
  | m + 1, a :: b :: rest =>
    if swapCond asc a b then
      let r := bubblePass asc m (a :: rest)
      ⟨b :: r.lst, r.comps + 1, r.swaps + 1⟩
    else
      let r := bubblePass asc m (b :: rest)
      ⟨a :: r.lst, r.comps + 1, r.swaps⟩

/-- The outer loop of `bubble_sort`: passes with comparison budgets
`k, k-1, ..., 1`.  `bubbleRun asc (n-1) l` is the whole run on a list of
length `n` (pass `i` of the Python loop has budget `n - 1 - i`). -/
def bubbleRun (asc : Bool) : Nat → List Entry → BubbleResult
  | 0, l => ⟨l, 0, 0⟩
  | k + 1, l =>
    let p := bubblePass asc (k + 1) l
    let r := bubbleRun asc k p.lst
    ⟨r.lst, p.comps + r.comps, p.swaps + r.swaps⟩

/-- `bubble_sort(draw_info, ascending)` run to exhaustion: the mutated list
together with the total comparison and swap (= yield) counts. -/
def bubble_sort (asc : Bool) (l : List Entry) : BubbleResult :=
  bubbleRun asc (l.length - 1) l

/-! ### Insertion sort (`insertion_sort`, lines 286-299)

```
for i in range(1, len(lst)):
    current = lst[i]
    j = i
    while j > 0 and ((lst[j-1][1] > current[1] and ascending)
                     or (lst[j-1][1] < current[1] and not ascending)):
        lst[j] = lst[j - 1]
        j -= 1
    lst[j] = current
    yield True
```

The while loop scans the prefix `lst[0..i-1]` from its right end, shifting
every element that satisfies the condition one slot to the right, and drops
`current` into the hole; the suffix `lst[i+1..]` is untouched.  One yield
per outer iteration, regardless of the number of shifts. -/

/-- The shift condition `(lst[j-1][1] > current[1] and ascending) or
(lst[j-1][1] < current[1] and not ascending)` for the scanned element `x =
lst[j-1]` and the element `c = current` being inserted. -/
def shiftCond (asc : Bool) (x c : Entry) : Bool :=
  (decide (c.2 < x.2) && asc) || (decide (x.2 < c.2) && !asc)

/-- One outer iteration of `insertion_sort`: the while loop shifts the
maximal right-to-left run of elements of `pre` satisfying `shiftCond` and
inserts `c` before them.  Returns the new prefix and the number of shifts
performed by the while loop. -/
def insertStep (asc : Bool) (c : Entry) (pre : List Entry) : List Entry × Nat :=
  let shifted := pre.reverse.takeWhile (fun x => shiftCond asc x c)
  let kept := pre.reverse.dropWhile (fun x => shiftCond asc x c)
  (kept.reverse ++ c :: shifted.reverse, shifted.length)

/-- Result of an insertion-sort run: the final list, the number of yields
(one per outer iteration) and the total number of inner shifts. -/
structure InsertionResult where
  lst : List Entry
  yields : Nat
  shifts : Nat
  deriving Repr, DecidableEq

/-- The outer loop of `insertion_sort`: `acc` is the already-processed
prefix `lst[0..i-1]`, `rest` the elements still to be inserted. -/
def insGo (asc : Bool) : List Entry → List Entry → InsertionResult
  | acc, [] => ⟨acc, 0, 0⟩
  | acc, c :: rest =>
    let s := insertStep asc c acc
    let r := insGo asc s.1 rest
    ⟨r.lst, r.yields + 1, r.shifts + s.2⟩

/-- `insertion_sort(draw_info, ascending)` run to exhaustion.  The Python
loop starts at `i = 1`, so an empty or singleton list is returned as is
with no yields. -/
def insertion_sort (asc : Bool) (l : List Entry) : InsertionResult :=
  match l with
  | [] => ⟨[], 0, 0⟩
  | a :: rest => insGo asc [a] rest

/-! ### The order on entries induced by the direction flag -/

/-- `KeyLE asc a b` says that `a` may stand (immediately) before `b` in a
finished run with direction `asc`: goal counts are non-decreasing when
ascending and non-increasing when descending. -/
def KeyLE (asc : Bool) (a b : Entry) : Prop :=
  if asc then a.2 ≤ b.2 else b.2 ≤ a.2

instance (asc : Bool) (a b : Entry) : Decidable (KeyLE asc a b) := by
  unfold KeyLE
  exact if h : asc then by simp [h]; infer_instance else by simp [h]; infer_instance

/-- A list is sorted for direction `asc` when every pair of positions is
ordered by `KeyLE asc`. -/
def SortedBy (asc : Bool) (l : List Entry) : Prop :=
  l.Pairwise (KeyLE asc)

theorem keyLE_refl (asc : Bool) (a : Entry) : KeyLE asc a a := by
  cases asc <;> simp [KeyLE]

theorem keyLE_trans {asc : Bool} {a b c : Entry} (h1 : KeyLE asc a b)
    (h2 : KeyLE asc b c) : KeyLE asc a c := by
  cases asc <;> simp_all [KeyLE] <;> omega

theorem keyLE_of_swapCond_eq_false {asc : Bool} {a b : Entry}
    (h : swapCond asc a b = false) : KeyLE asc a b := by
  cases asc <;> simp_all [swapCond, KeyLE]

theorem keyLE_of_swapCond {asc : Bool} {a b : Entry}
    (h : swapCond asc a b = true) : KeyLE asc b a := by
  cases asc <;> simp_all [swapCond, KeyLE] <;> omega

theorem snd_ne_of_swapCond {asc : Bool} {a b : Entry}
    (h : swapCond asc a b = true) : a.2 ≠ b.2 := by
  cases asc <;> simp_all [swapCond] <;> omega

theorem keyLE_of_shiftCond {asc : Bool} {x c : Entry}
    (h : shiftCond asc x c = true) : KeyLE asc c x := by
  cases asc <;> simp_all [shiftCond, KeyLE] <;> omega

theorem snd_ne_of_shiftCond {asc : Bool} {x c : Entry}
    (h : shiftCond asc x c = true) : x.2 ≠ c.2 := by
  cases asc <;> simp_all [shiftCond] <;> omega

theorem keyLE_of_shiftCond_eq_false {asc : Bool} {x c : Entry}
    (h : shiftCond asc x c = false) : KeyLE asc x c := by
  cases asc <;> simp_all [shiftCond, KeyLE]

theorem mem_takeWhile_shiftCond {asc : Bool} {c y : Entry} {l : List Entry}
    (hy : y ∈ l.takeWhile (fun x => shiftCond asc x c)) : shiftCond asc y c = true := by
  have h2 := List.mem_takeWhile_imp hy
  simpa using h2

/-! ### Basic structural lemmas about the two sorts -/

theorem bubbleRun_succ (asc : Bool) (k : Nat) (l : List Entry) :
    bubbleRun asc (k + 1) l =
      ⟨(bubbleRun asc k (bubblePass asc (k + 1) l).lst).lst,
       (bubblePass asc (k + 1) l).comps + (bubbleRun asc k (bubblePass asc (k + 1) l).lst).comps,
       (bubblePass asc (k + 1) l).swaps + (bubbleRun asc k (bubblePass asc (k + 1) l).lst).swaps⟩ :=
  rfl

theorem insGo_cons (asc : Bool) (acc c : _) (rest : List Entry) :
    insGo asc acc (c :: rest) =
      ⟨(insGo asc (insertStep asc c acc).1 rest).lst,
       (insGo asc (insertStep asc c acc).1 rest).yields + 1,
       (insGo asc (insertStep asc c acc).1 rest).shifts + (insertStep asc c acc).2⟩ :=
  rfl

theorem bubblePass_perm (asc : Bool) :
    ∀ (m : Nat) (l : List Entry), List.Perm (bubblePass asc m l).lst l := by
  intro m
  induction m with
  | zero => intro l; simp [bubblePass]
  | succ m ih =>
    intro l
    match l with
    | [] => simp [bubblePass]
    | [a] => simp [bubblePass]
    | a :: b :: rest =>
      by_cases h : swapCond asc a b
      · simp only [bubblePass, h, if_true]
        exact ((ih (a :: rest)).cons b).trans (List.Perm.swap a b rest)
      · simp only [bubblePass, h, if_false]
        exact (ih (b :: rest)).cons a

theorem bubblePass_length (asc : Bool) (m : Nat) (l : List Entry) :
    (bubblePass asc m l).lst.length = l.length :=
  (bubblePass_perm asc m l).length_eq

theorem bubbleRun_perm (asc : Bool) :
    ∀ (k : Nat) (l : List Entry), List.Perm (bubbleRun asc k l).lst l := by
  intro k
  induction k with
  | zero => intro l; simp [bubbleRun]
  | succ k ih =>
    intro l
    rw [bubbleRun_succ]
    exact (ih _).trans (bubblePass_perm asc (k + 1) l)

theorem bubblePass_comps (asc : Bool) :
    ∀ (m : Nat) (l : List Entry), (bubblePass asc m l).comps = min m (l.length - 1) := by
  intro m
  induction m with
  | zero => intro l; simp [bubblePass]
  | succ m ih =>
    intro l
    match l with
    | [] => simp [bubblePass]
    | [a] => simp [bubblePass]
    | a :: b :: rest =>
      by_cases h : swapCond asc a b
      · simp only [bubblePass, h, if_true]
        have := ih (a :: rest)
        simp only [List.length_cons] at this ⊢
        omega
      · simp only [bubblePass, h, Bool.false_eq_true, if_false]
        have := ih (b :: rest)
        simp only [List.length_cons] at this ⊢
        omega

theorem bubbleRun_comps_double (asc : Bool) :
    ∀ (k : Nat) (l : List Entry), k ≤ l.length - 1 →
      2 * (bubbleRun asc k l).comps = k * (k + 1) := by
  intro k
  induction k with
  | zero => intro l _; simp [bubbleRun]
  | succ k ih =>
    intro l hk
    rw [bubbleRun_succ]
    have hpc : (bubblePass asc (k + 1) l).comps = k + 1 := by
      rw [bubblePass_comps]; omega
    have hlen : (bubblePass asc (k + 1) l).lst.length = l.length :=
      bubblePass_length asc (k + 1) l
    have hrec : 2 * (bubbleRun asc k (bubblePass asc (k + 1) l).lst).comps = k * (k + 1) := by
      apply ih; omega
    simp only [hpc]
    calc 2 * (k + 1 + (bubbleRun asc k (bubblePass asc (k + 1) l).lst).comps)
        = 2 * (k + 1) + 2 * (bubbleRun asc k (bubblePass asc (k + 1) l).lst).comps := by ring
      _ = 2 * (k + 1) + k * (k + 1) := by rw [hrec]
      _ = (k + 1) * (k + 1 + 1) := by ring

theorem insertStep_decomp (asc : Bool) (c : Entry) (pre : List Entry) :
    (pre.reverse.dropWhile (fun x => shiftCond asc x c)).reverse ++
      (pre.reverse.takeWhile (fun x => shiftCond asc x c)).reverse = pre := by
  rw [← List.reverse_append, List.takeWhile_append_dropWhile, List.reverse_reverse]

theorem insertStep_fst_perm (asc : Bool) (c : Entry) (pre : List Entry) :
    List.Perm (insertStep asc c pre).1 (c :: pre) := by
  unfold insertStep
  simp only []
  have h : List.Perm
      ((pre.reverse.dropWhile (fun x => shiftCond asc x c)).reverse ++
        c :: (pre.reverse.takeWhile (fun x => shiftCond asc x c)).reverse)
      (c :: ((pre.reverse.dropWhile (fun x => shiftCond asc x c)).reverse ++
        (pre.reverse.takeWhile (fun x => shiftCond asc x c)).reverse)) :=
    List.perm_middle
  refine h.trans ?_
  rw [insertStep_decomp]

theorem insGo_lst_perm (asc : Bool) :
    ∀ (rest acc : List Entry), List.Perm (insGo asc acc rest).lst (acc ++ rest) := by
  intro rest
  induction rest with
  | nil => intro acc; simp [insGo]
  | cons c rest ih =>
    intro acc
    rw [insGo_cons]
    refine (ih _).trans ?_
    have h1 : List.Perm ((insertStep asc c acc).1 ++ rest) ((c :: acc) ++ rest) :=
      (insertStep_fst_perm asc c acc).append_right rest
    refine h1.trans ?_
    have hm : List.Perm (acc ++ c :: rest) (c :: (acc ++ rest)) := List.perm_middle
    simpa using hm.symm

theorem insertion_sort_perm (asc : Bool) (l : List Entry) :
    List.Perm (insertion_sort asc l).lst l := by
  match l with
  | [] => simp [insertion_sort]
  | a :: rest =>
    simpa using insGo_lst_perm asc rest [a]

theorem insGo_yields (asc : Bool) :
    ∀ (rest acc : List Entry), (insGo asc acc rest).yields = rest.length := by
  intro rest
  induction rest with
  | nil => intro acc; simp [insGo]
  | cons c rest ih => intro acc; rw [insGo_cons, ih]; simp

theorem insertion_sort_yields (asc : Bool) (l : List Entry) :
    (insertion_sort asc l).yields = l.length - 1 := by
  match l with
  | [] => simp [insertion_sort]
  | a :: rest => simp [insertion_sort, insGo_yields]

theorem bubble_sort_comps (asc : Bool) (l : List Entry) :
    (bubble_sort asc l).comps = l.length * (l.length - 1) / 2 := by
  have h2 : 2 * (bubble_sort asc l).comps = (l.length - 1) * (l.length - 1 + 1) :=
    bubbleRun_comps_double asc (l.length - 1) l (le_refl _)
  have h3 : (l.length - 1) * (l.length - 1 + 1) = l.length * (l.length - 1) := by
    cases hl : l.length with
    | zero => simp
    | succ n => simp [Nat.succ_sub_one]; ring
  rw [h3] at h2
  omega

/-! ### Sortedness of a full bubble run

The inner pass with budget `m` only touches the first `m + 1` positions of
the list; on those it is a permutation that leaves a maximal element (for
the direction `asc`) at the last touched position. -/

theorem bubblePass_drop (asc : Bool) :
    ∀ (m : Nat) (l : List Entry), (bubblePass asc m l).lst.drop (m + 1) = l.drop (m + 1) := by
  intro m
  induction m with
  | zero =>
    intro l
    simp [bubblePass]
  | succ m ih =>
    intro l
    match l with
    | [] => simp [bubblePass]
    | [a] => simp [bubblePass]
    | a :: b :: rest =>
      by_cases h : swapCond asc a b
      · simp only [bubblePass, h, if_true, List.drop_succ_cons]
        exact ih (a :: rest)
      · simp only [bubblePass, h, Bool.false_eq_true, if_false, List.drop_succ_cons]
        exact ih (b :: rest)

theorem bubblePass_take_perm (asc : Bool) (m : Nat) (l : List Entry) :
    List.Perm ((bubblePass asc m l).lst.take (m + 1)) (l.take (m + 1)) := by
  have hp := bubblePass_perm asc m l
  have hd := bubblePass_drop asc m l
  have h1 : List.Perm
      ((bubblePass asc m l).lst.take (m + 1) ++ (bubblePass asc m l).lst.drop (m + 1))
      (l.take (m + 1) ++ l.drop (m + 1)) := by
    rw [List.take_append_drop, List.take_append_drop]
    exact hp
  rw [hd] at h1
  exact (List.perm_append_right_iff _).1 h1

theorem bubblePass_last_max (asc : Bool) :
    ∀ (m : Nat) (l : List Entry), m + 1 ≤ l.length →
      ∃ A mx, (bubblePass asc m l).lst.take (m + 1) = A ++ [mx] ∧ A.length = m ∧
        ∀ x ∈ A ++ [mx], KeyLE asc x mx := by
  intro m
  induction m with
  | zero =>
    intro l hl
    cases l with
    | nil => simp at hl
    | cons e es =>
      refine ⟨[], e, by simp [bubblePass], rfl, ?_⟩
      intro x hx
      simp at hx
      subst hx
      exact keyLE_refl asc _
  | succ m ih =>
    intro l hl
    cases l with
    | nil => simp at hl
    | cons a t =>
    cases t with
    | nil => simp at hl
    | cons b rest =>
      by_cases h : swapCond asc a b
      · simp only [bubblePass, h, if_true, List.take_succ_cons]
        obtain ⟨A, mx, htake, hA, hmax⟩ := ih (a :: rest) (by simp at hl ⊢; omega)
        have ha_mem : a ∈ A ++ [mx] := by
          rw [← htake]
          exact ((bubblePass_take_perm asc m (a :: rest)).mem_iff).2 (by simp)
        refine ⟨b :: A, mx, by simp [htake], by simp [hA], ?_⟩
        intro x hx
        rw [List.cons_append, List.mem_cons] at hx
        rcases hx with rfl | hx
        · exact keyLE_trans (keyLE_of_swapCond h) (hmax a ha_mem)
        · exact hmax x hx
      · simp only [bubblePass, h, Bool.false_eq_true, if_false, List.take_succ_cons]
        obtain ⟨A, mx, htake, hA, hmax⟩ := ih (b :: rest) (by simp at hl ⊢; omega)
        have hb_mem : b ∈ A ++ [mx] := by
          rw [← htake]
          exact ((bubblePass_take_perm asc m (b :: rest)).mem_iff).2 (by simp)
        refine ⟨a :: A, mx, by simp [htake], by simp [hA], ?_⟩
        intro x hx
        rw [List.cons_append, List.mem_cons] at hx
        rcases hx with rfl | hx
        · exact keyLE_trans (keyLE_of_swapCond_eq_false (by simpa using h)) (hmax b hb_mem)
        · exact hmax x hx

theorem bubbleRun_sorted_of_inv (asc : Bool) :
    ∀ (k : Nat) (l : List Entry), k + 1 ≤ l.length →
      List.Pairwise (KeyLE asc) (l.drop (k + 1)) →
      (∀ x ∈ l.take (k + 1), ∀ y ∈ l.drop (k + 1), KeyLE asc x y) →
      List.Pairwise (KeyLE asc) (bubbleRun asc k l).lst := by
  intro k
  induction k with
  | zero =>
    intro l hl hsort hcross
    show List.Pairwise (KeyLE asc) l
    conv => rw [← List.take_append_drop 1 l]
    rw [List.pairwise_append]
    refine ⟨?_, hsort, hcross⟩
    cases l with
    | nil => simp at hl
    | cons e es => simp
  | succ k ih =>
    intro l hl hsort hcross
    rw [bubbleRun_succ]
    obtain ⟨A, mx, htake, hA, hmax⟩ := bubblePass_last_max asc (k + 1) l (by omega)
    set bp := (bubblePass asc (k + 1) l).lst with hbp
    have hlen : bp.length = l.length := bubblePass_length asc (k + 1) l
    have hdrop : bp.drop (k + 2) = l.drop (k + 2) := bubblePass_drop asc (k + 1) l
    have hdecomp : bp = A ++ [mx] ++ l.drop (k + 2) := by
      conv_lhs => rw [← List.take_append_drop (k + 2) bp]
      rw [htake, hdrop]
    have htp : List.Perm (A ++ [mx]) (l.take (k + 2)) := by
      rw [← htake]
      exact bubblePass_take_perm asc (k + 1) l
    have hmem_take : ∀ x ∈ A ++ [mx], x ∈ l.take (k + 2) := fun x hx => (htp.mem_iff).1 hx
    have hbp_drop : bp.drop (k + 1) = mx :: l.drop (k + 2) := by
      rw [hdecomp, List.append_assoc]
      have : (A ++ ([mx] ++ l.drop (k + 2))).drop A.length = [mx] ++ l.drop (k + 2) :=
        List.drop_left A ([mx] ++ l.drop (k + 2))
      rw [hA] at this
      simpa using this
    have hbp_take : bp.take (k + 1) = A := by
      rw [hdecomp, List.append_assoc]
      have : (A ++ ([mx] ++ l.drop (k + 2))).take A.length = A :=
        List.take_left A ([mx] ++ l.drop (k + 2))
      rw [hA] at this
      simpa using this
    apply ih bp (by omega)
    · rw [hbp_drop]
      rw [List.pairwise_cons]
      refine ⟨?_, hsort⟩
      intro y hy
      exact hcross mx (hmem_take mx (by simp)) y hy
    · intro x hx y hy
      rw [hbp_take] at hx
      rw [hbp_drop, List.mem_cons] at hy
      rcases hy with rfl | hy
      · exact hmax x (by simp [hx])
      · exact hcross x (hmem_take x (by simp [hx])) y hy

theorem bubble_sort_sorted (asc : Bool) (l : List Entry) :
    List.Pairwise (KeyLE asc) (bubble_sort asc l).lst := by
  match l with
  | [] => simp [bubble_sort, bubbleRun]
  | a :: es =>
    unfold bubble_sort
    have hlen : (a :: es).length - 1 + 1 = (a :: es).length := by simp
    apply bubbleRun_sorted_of_inv
    · omega
    · rw [hlen, List.drop_length]
      exact List.Pairwise.nil
    · intro x _ y hy
      rw [hlen, List.drop_length] at hy
      exact absurd hy (List.not_mem_nil y)

/-! ### Sortedness of a full insertion run -/

theorem dropWhile_head_false {α : Type} (p : α → Bool) (l : List α) (k0 : α) (kt : List α)
    (h : l.dropWhile p = k0 :: kt) : p k0 = false := by
  have h2 := List.head?_dropWhile_not p l
  rw [h] at h2
  simpa using h2

theorem insertStep_sorted (asc : Bool) (c : Entry) (pre : List Entry)
    (h : List.Pairwise (KeyLE asc) pre) :
    List.Pairwise (KeyLE asc) (insertStep asc c pre).1 := by
  show List.Pairwise (KeyLE asc)
    ((pre.reverse.dropWhile (fun x => shiftCond asc x c)).reverse ++
      c :: (pre.reverse.takeWhile (fun x => shiftCond asc x c)).reverse)
  have hpre : List.Pairwise (KeyLE asc)
      ((pre.reverse.dropWhile (fun x => shiftCond asc x c)).reverse ++
        (pre.reverse.takeWhile (fun x => shiftCond asc x c)).reverse) := by
    rw [insertStep_decomp]; exact h
  rw [List.pairwise_append] at hpre
  obtain ⟨hKs, hSs, hcross⟩ := hpre
  have hSm : ∀ y ∈ (pre.reverse.takeWhile (fun x => shiftCond asc x c)).reverse,
      KeyLE asc c y := by
    intro y hy
    rw [List.mem_reverse] at hy
    exact keyLE_of_shiftCond (mem_takeWhile_shiftCond hy)
  have hKc : ∀ x ∈ (pre.reverse.dropWhile (fun x => shiftCond asc x c)).reverse,
      KeyLE asc x c := by
    intro x hx
    cases hK : pre.reverse.dropWhile (fun x => shiftCond asc x c) with
    | nil => rw [hK] at hx; simp at hx
    | cons k0 kt =>
      have hpk0 : shiftCond asc k0 c = false :=
        dropWhile_head_false (fun x => shiftCond asc x c) pre.reverse k0 kt hK
      have hk0c : KeyLE asc k0 c := keyLE_of_shiftCond_eq_false hpk0
      rw [hK, List.reverse_cons] at hx
      rcases List.mem_append.1 hx with hx1 | hx1
      · rw [hK, List.reverse_cons, List.pairwise_append] at hKs
        exact keyLE_trans (hKs.2.2 x hx1 k0 (by simp)) hk0c
      · simp at hx1
        subst hx1
        exact hk0c
  rw [List.pairwise_append]
  refine ⟨hKs, ?_, ?_⟩
  · rw [List.pairwise_cons]
    exact ⟨hSm, hSs⟩
  · intro a ha b hb
    rw [List.mem_cons] at hb
    rcases hb with rfl | hb
    · exact hKc a ha
    · exact hcross a ha b hb

theorem insGo_sorted (asc : Bool) :
    ∀ (rest acc : List Entry), List.Pairwise (KeyLE asc) acc →
      List.Pairwise (KeyLE asc) (insGo asc acc rest).lst := by
  intro rest
  induction rest with
  | nil => intro acc h; exact h
  | cons c rest ih =>
    intro acc h
    rw [insGo_cons]
    exact ih _ (insertStep_sorted asc c acc h)

theorem insertion_sort_sorted (asc : Bool) (l : List Entry) :
    List.Pairwise (KeyLE asc) (insertion_sort asc l).lst := by
  match l with
  | [] => exact List.Pairwise.nil
  | a :: rest =>
    exact insGo_sorted asc rest [a] (by simp)

/-- C1: on every dataset of size at least 2, a full run of either sort
with `ascending = true` leaves the goal counts non-decreasing from left to
right, and with `ascending = false` non-increasing. -/
theorem C1_sorted_after_full_run (l : List Entry) (h : 2 ≤ l.length) :
    ((bubble_sort true l).lst.Pairwise fun a b => a.2 ≤ b.2) ∧
    ((insertion_sort true l).lst.Pairwise fun a b => a.2 ≤ b.2) ∧
    ((bubble_sort false l).lst.Pairwise fun a b => b.2 ≤ a.2) ∧
    ((insertion_sort false l).lst.Pairwise fun a b => b.2 ≤ a.2) := by
  refine ⟨?_, ?_, ?_, ?_⟩
  · exact (bubble_sort_sorted true l).imp (fun hab => by simpa [KeyLE] using hab)
  · exact (insertion_sort_sorted true l).imp (fun hab => by simpa [KeyLE] using hab)
  · exact (bubble_sort_sorted false l).imp (fun hab => by simpa [KeyLE] using hab)
  · exact (insertion_sort_sorted false l).imp (fun hab => by simpa [KeyLE] using hab)

/-- Witness for C1 on the dataset `[("Smith", 3), ("Jones", 10), ("Lee", 1)]`
from the specification's example. -/
theorem C1_sorted_after_full_run_witness :
    ((bubble_sort true [("Smith", 3), ("Jones", 10), ("Lee", 1)]).lst.Pairwise
      fun a b => a.2 ≤ b.2) ∧
    ((insertion_sort true [("Smith", 3), ("Jones", 10), ("Lee", 1)]).lst.Pairwise
      fun a b => a.2 ≤ b.2) ∧
    ((bubble_sort false [("Smith", 3), ("Jones", 10), ("Lee", 1)]).lst.Pairwise
      fun a b => b.2 ≤ a.2) ∧
    ((insertion_sort false [("Smith", 3), ("Jones", 10), ("Lee", 1)]).lst.Pairwise
      fun a b => b.2 ≤ a.2) :=
  C1_sorted_after_full_run [("Smith", 3), ("Jones", 10), ("Lee", 1)] (by decide)

/-- C2: a full bubble run always performs exactly `n(n-1)/2` adjacent
comparisons (there is no early exit on a swap-free pass), and a full
insertion run performs exactly `n-1` outer iterations with exactly one
yield each, independent of the data and of the number of inner shifts. -/
theorem C2_step_counts (asc : Bool) (l : List Entry) :
    (bubble_sort asc l).comps = l.length * (l.length - 1) / 2 ∧
    (insertion_sort asc l).yields = l.length - 1 :=
  ⟨bubble_sort_comps asc l, insertion_sort_yields asc l⟩

/-! ### Runs on an already sorted list do nothing (claim C7) -/

theorem swapCond_eq_false_of_keyLE {asc : Bool} {a b : Entry}
    (h : KeyLE asc a b) : swapCond asc a b = false := by
  cases asc <;> simp_all [swapCond, KeyLE]

theorem shiftCond_eq_false_of_keyLE {asc : Bool} {x c : Entry}
    (h : KeyLE asc x c) : shiftCond asc x c = false := by
  cases asc <;> simp_all [shiftCond, KeyLE]

theorem bubblePass_sorted_fix (asc : Bool) :
    ∀ (m : Nat) (l : List Entry), List.Pairwise (KeyLE asc) l →
      (bubblePass asc m l).lst = l ∧ (bubblePass asc m l).swaps = 0 := by
  intro m
  induction m with
  | zero => intro l _; exact ⟨rfl, rfl⟩
  | succ m ih =>
    intro l hl
    match l with
    | [] => exact ⟨rfl, rfl⟩
    | [a] => exact ⟨rfl, rfl⟩
    | a :: b :: rest =>
      rw [List.pairwise_cons] at hl
      have hab : KeyLE asc a b := hl.1 b (by simp)
      have hsw : swapCond asc a b = false := swapCond_eq_false_of_keyLE hab
      have hrec := ih (b :: rest) hl.2
      simp only [bubblePass, hsw, Bool.false_eq_true, if_false]
      exact ⟨by rw [hrec.1], by rw [hrec.2]⟩

theorem bubbleRun_sorted_fix (asc : Bool) :
    ∀ (k : Nat) (l : List Entry), List.Pairwise (KeyLE asc) l →
      (bubbleRun asc k l).lst = l ∧ (bubbleRun asc k l).swaps = 0 := by
  intro k
  induction k with
  | zero => intro l _; exact ⟨rfl, rfl⟩
  | succ k ih =>
    intro l hl
    rw [bubbleRun_succ]
    have hp := bubblePass_sorted_fix asc (k + 1) l hl
    have hr := ih (bubblePass asc (k + 1) l).lst (by rw [hp.1]; exact hl)
    refine ⟨by rw [hr.1, hp.1], by rw [hp.2, hr.2]⟩

theorem insertStep_sorted_fix (asc : Bool) (c : Entry) (acc : List Entry)
    (h : List.Pairwise (KeyLE asc) (acc ++ [c])) :
    insertStep asc c acc = (acc ++ [c], 0) := by
  have hcr : ∀ x ∈ acc, KeyLE asc x c := by
    rw [List.pairwise_append] at h
    intro x hx
    exact h.2.2 x hx c (by simp)
  have htw : acc.reverse.takeWhile (fun x => shiftCond asc x c) = [] := by
    cases hrev : acc.reverse with
    | nil => simp
    | cons r0 rt =>
      have hr0 : r0 ∈ acc := by
        rw [← List.mem_reverse, hrev]; simp
      exact List.takeWhile_cons_of_neg (by simp [shiftCond_eq_false_of_keyLE (hcr r0 hr0)])
  have hdw : acc.reverse.dropWhile (fun x => shiftCond asc x c) = acc.reverse := by
    cases hrev : acc.reverse with
    | nil => simp
    | cons r0 rt =>
      have hr0 : r0 ∈ acc := by
        rw [← List.mem_reverse, hrev]; simp
      exact List.dropWhile_cons_of_neg (by simp [shiftCond_eq_false_of_keyLE (hcr r0 hr0)])
  show ((acc.reverse.dropWhile (fun x => shiftCond asc x c)).reverse ++
      c :: (acc.reverse.takeWhile (fun x => shiftCond asc x c)).reverse,
      (acc.reverse.takeWhile (fun x => shiftCond asc x c)).length) = (acc ++ [c], 0)
  rw [htw, hdw, List.reverse_reverse]
  simp

theorem insGo_sorted_fix (asc : Bool) :
    ∀ (rest acc : List Entry), List.Pairwise (KeyLE asc) (acc ++ rest) →
      insGo asc acc rest = ⟨acc ++ rest, rest.length, 0⟩ := by
  intro rest
  induction rest with
  | nil => intro acc _; simp [insGo]
  | cons c rest ih =>
    intro acc h
    have hsub : List.Sublist (acc ++ [c]) (acc ++ c :: rest) :=
      List.Sublist.append_left (by simp) acc
    have hstep : insertStep asc c acc = (acc ++ [c], 0) :=
      insertStep_sorted_fix asc c acc (h.sublist hsub)
    have hrec : insGo asc (acc ++ [c]) rest = ⟨(acc ++ [c]) ++ rest, rest.length, 0⟩ := by
      apply ih
      rw [List.append_assoc]
      simpa using h
    rw [insGo_cons, hstep]
    simp [hrec]

theorem insertion_sort_sorted_fix (asc : Bool) (l : List Entry)
    (h : List.Pairwise (KeyLE asc) l) :
    insertion_sort asc l = ⟨l, l.length - 1, 0⟩ := by
  match l with
  | [] => rfl
  | a :: rest =>
    show insGo asc [a] rest = _
    rw [insGo_sorted_fix asc rest [a] (by simpa using h)]
    simp

/-- C7: running either sort to completion and then running the same sort in
the same direction again leaves the list unchanged; the second bubble run
performs zero swaps (hence, since it yields once per swap, it yields no
steps), and the second insertion run performs zero shifts. -/
theorem C7_idempotent (asc : Bool) (l : List Entry) :
    (bubble_sort asc (bubble_sort asc l).lst).lst = (bubble_sort asc l).lst ∧
    (bubble_sort asc (bubble_sort asc l).lst).swaps = 0 ∧
    (insertion_sort asc (insertion_sort asc l).lst).lst = (insertion_sort asc l).lst ∧
    (insertion_sort asc (insertion_sort asc l).lst).shifts = 0 := by
  have hb := bubbleRun_sorted_fix asc ((bubble_sort asc l).lst.length - 1)
    (bubble_sort asc l).lst (bubble_sort_sorted asc l)
  have hi := insertion_sort_sorted_fix asc (insertion_sort asc l).lst
    (insertion_sort_sorted asc l)
  exact ⟨hb.1, hb.2, by rw [hi], by rw [hi]⟩

/-- C5: both sorts, run to exhaustion, return a permutation of the input
dataset: the multiset of `(name, goals)` entries and the length are
preserved, for every input and both directions. -/
theorem C5_permutation (asc : Bool) (l : List Entry) :
    List.Perm (bubble_sort asc l).lst l ∧
    (bubble_sort asc l).lst.length = l.length ∧
    List.Perm (insertion_sort asc l).lst l ∧
    (insertion_sort asc l).lst.length = l.length :=
  ⟨bubbleRun_perm asc _ l, (bubbleRun_perm asc _ l).length_eq,
   insertion_sort_perm asc l, (insertion_sort_perm asc l).length_eq⟩

/-! ### Stability (claim C10): both sorts preserve, for every goal value
`v`, the subsequence of entries whose goal count is `v`, because both
compare with strict inequalities only. -/

theorem bubblePass_filter (asc : Bool) (v : Int) :
    ∀ (m : Nat) (l : List Entry),
      (bubblePass asc m l).lst.filter (fun e => decide (e.2 = v)) =
        l.filter (fun e => decide (e.2 = v)) := by
  intro m
  induction m with
  | zero => intro l; rfl
  | succ m ih =>
    intro l
    match l with
    | [] => rfl
    | [a] => rfl
    | a :: b :: rest =>
      by_cases h : swapCond asc a b
      · have hne : a.2 ≠ b.2 := snd_ne_of_swapCond h
        simp only [bubblePass, h, if_true]
        have iha := ih (a :: rest)
        by_cases ha : a.2 = v
        · have hb : ¬b.2 = v := fun hb => hne (by rw [ha, hb])
          simpa [List.filter_cons, ha, hb] using iha
        · by_cases hb : b.2 = v
          · simpa [List.filter_cons, ha, hb] using iha
          · simpa [List.filter_cons, ha, hb] using iha
      · simp only [bubblePass, h, Bool.false_eq_true, if_false]
        have ihb := ih (b :: rest)
        simp only [List.filter_cons] at ihb ⊢
        by_cases ha : a.2 = v <;> simp [ha, ihb]

theorem bubbleRun_filter (asc : Bool) (v : Int) :
    ∀ (k : Nat) (l : List Entry),
      (bubbleRun asc k l).lst.filter (fun e => decide (e.2 = v)) =
        l.filter (fun e => decide (e.2 = v)) := by
  intro k
  induction k with
  | zero => intro l; rfl
  | succ k ih =>
    intro l
    rw [bubbleRun_succ]
    show (bubbleRun asc k (bubblePass asc (k + 1) l).lst).lst.filter _ = _
    rw [ih, bubblePass_filter]

theorem insertStep_filter (asc : Bool) (v : Int) (c : Entry) (acc : List Entry) :
    (insertStep asc c acc).1.filter (fun e => decide (e.2 = v)) =
      (acc ++ [c]).filter (fun e => decide (e.2 = v)) := by
  have hshifted : ∀ y ∈ (acc.reverse.takeWhile (fun x => shiftCond asc x c)).reverse,
      y.2 ≠ c.2 := by
    intro y hy
    rw [List.mem_reverse] at hy
    exact snd_ne_of_shiftCond (mem_takeWhile_shiftCond hy)
  have hacc : (acc.reverse.dropWhile (fun x => shiftCond asc x c)).reverse ++
      (acc.reverse.takeWhile (fun x => shiftCond asc x c)).reverse = acc :=
    insertStep_decomp asc c acc
  show ((acc.reverse.dropWhile (fun x => shiftCond asc x c)).reverse ++
      c :: (acc.reverse.takeWhile (fun x => shiftCond asc x c)).reverse).filter _ = _
  conv_rhs => rw [← hacc]
  by_cases hc : c.2 = v
  · have hnil : (acc.reverse.takeWhile (fun x => shiftCond asc x c)).reverse.filter
        (fun e => decide (e.2 = v)) = [] := by
      rw [List.filter_eq_nil_iff]
      intro y hy
      simpa using fun hyv => hshifted y hy (by rw [hyv, hc])
    simp [List.filter_append, List.filter_cons, hc, hnil]
  · simp [List.filter_append, List.filter_cons, hc]

theorem insGo_filter (asc : Bool) (v : Int) :
    ∀ (rest acc : List Entry),
      (insGo asc acc rest).lst.filter (fun e => decide (e.2 = v)) =
        (acc ++ rest).filter (fun e => decide (e.2 = v)) := by
  intro rest
  induction rest with
  | nil => intro acc; simp [insGo]
  | cons c rest ih =>
    intro acc
    rw [insGo_cons]
    show (insGo asc (insertStep asc c acc).1 rest).lst.filter _ = _
    rw [ih]
    simp only [List.filter_append] at *
    rw [insertStep_filter]
    by_cases hc : c.2 = v <;> simp [List.filter_append, List.filter_cons, hc]

/-- C10: both sorts are stable.  For every input list, direction, and goal
value `v`, the subsequence of entries whose goal count equals `v` is the
same before and after a complete run, i.e. entries with equal goal counts
keep their relative order (both algorithms swap/shift on strict
inequalities only). -/
theorem C10_stable (asc : Bool) (l : List Entry) (v : Int) :
    (bubble_sort asc l).lst.filter (fun e => decide (e.2 = v)) =
      l.filter (fun e => decide (e.2 = v)) ∧
    (insertion_sort asc l).lst.filter (fun e => decide (e.2 = v)) =
      l.filter (fun e => decide (e.2 = v)) := by
  constructor
  · exact bubbleRun_filter asc v (l.length - 1) l
  · match l with
    | [] => rfl
    | a :: rest =>
      show (insGo asc [a] rest).lst.filter _ = _
      rw [insGo_filter]
      rfl

/-! ### Geometry derivation (`DrawInformation.set_list`, lines 53-68)

```
self.min_val = min(val[1] for val in lst)
self.max_val = max(val[1] for val in lst)
self.block_width = round((self.width - self.SIDE_PAD) / len(lst))
self.block_height = math.floor(
    (self.height - self.TOP_PAD - self.BOTTOM_PAD) / max(1, (self.max_val - self.min_val or 1)))
self.start_x = self.SIDE_PAD // 2
```

Python's `round` on the exact quotient is round-half-to-even; `math.floor`
of the quotient is Euclidean division by a positive divisor, which is what
`Int./` computes.  `x or 1` on an integer is `1` exactly when `x == 0`. -/

def SIDE_PAD : Int := 100
def TOP_PAD : Int := 150
def BOTTOM_PAD : Int := 150

/-- Round-half-to-even of the exact quotient `a / b` for `b > 0`,
the behaviour of Python's builtin `round` on the (exact) quotient. -/
def roundHalfEven (a b : Int) : Int :=
  if 2 * (a % b) < b then a / b
  else if b < 2 * (a % b) then a / b + 1
  else if (a / b) % 2 = 0 then a / b else a / b + 1

/-- `self.block_width = round((self.width - self.SIDE_PAD) / len(lst))`. -/
def block_width (width : Int) (n : Nat) : Int :=
  roundHalfEven (width - SIDE_PAD) n

/-- Modelled from the spec: `bar_width = floor((width − side_padding) /
count)`, the formula claimed by the specification (the code uses `round`
instead). -/
def specBlockWidth (width : Int) (n : Nat) : Int :=
  (width - SIDE_PAD) / n

/-- `min(val[1] for val in lst)` (0 on the empty list, on which Python
would raise instead; all claims assume a non-empty dataset). -/
def minVal : List Entry → Int
  | [] => 0
  | e :: es => es.foldl (fun m x => min m x.2) e.2

/-- `max(val[1] for val in lst)`. -/
def maxVal : List Entry → Int
  | [] => 0
  | e :: es => es.foldl (fun m x => max m x.2) e.2

/-- `max(1, (self.max_val - self.min_val or 1))`, the divisor of the
`block_height` computation. -/
def heightDivisor (l : List Entry) : Int :=
  max 1 (if maxVal l - minVal l = 0 then 1 else maxVal l - minVal l)

/-- `self.block_height = math.floor((height - TOP_PAD - BOTTOM_PAD) /
max(1, (max_val - min_val or 1)))`. -/
def block_height (height : Int) (l : List Entry) : Int :=
  (height - TOP_PAD - BOTTOM_PAD) / heightDivisor l

/-- The top `y` coordinate of the bar of entry `e` in `draw_list`:
`y = height - BOTTOM_PAD - (val - min_val) * block_height`. -/
def barY (height : Int) (l : List Entry) (e : Entry) : Int :=
  height - BOTTOM_PAD - (e.2 - minVal l) * block_height height l

/-- The drawn height of the bar of entry `e` in `draw_list`: the rectangle
spans from `y` to the bottom of the window, `height - y`. -/
def barHeight (height : Int) (l : List Entry) (e : Entry) : Int :=
  height - barY height l e

theorem roundHalfEven_spec (a b : Int) (hb : 0 < b) :
    2 * |b * roundHalfEven a b - a| ≤ b ∧
    (2 * |b * roundHalfEven a b - a| = b → roundHalfEven a b % 2 = 0) ∧
    a / b ≤ roundHalfEven a b ∧ roundHalfEven a b ≤ a / b + 1 := by
  have hqr : b * (a / b) + a % b = a := Int.ediv_add_emod a b
  have hr0 : 0 ≤ a % b := Int.emod_nonneg a (by omega)
  have hrb : a % b < b := Int.emod_lt_of_pos a hb
  have hm : b * (a / b + 1) = b * (a / b) + b := by ring
  unfold roundHalfEven
  by_cases h1 : 2 * (a % b) < b
  · rw [if_pos h1]
    have habs : |b * (a / b) - a| = a % b := by
      rw [show b * (a / b) - a = -(a % b) by linarith, abs_neg, abs_of_nonneg hr0]
    rw [habs]
    exact ⟨by linarith, fun heq => False.elim (by linarith), le_refl _, by linarith⟩
  · by_cases h2 : b < 2 * (a % b)
    · rw [if_neg h1, if_pos h2]
      have habs : |b * (a / b + 1) - a| = b - a % b := by
        rw [show b * (a / b + 1) - a = b - a % b by linarith, abs_of_nonneg (by linarith)]
      rw [habs]
      exact ⟨by linarith, fun heq => False.elim (by linarith), by linarith, le_refl _⟩
    · by_cases h3 : (a / b) % 2 = 0
      · rw [if_neg h1, if_neg h2, if_pos h3]
        have habs : |b * (a / b) - a| = a % b := by
          rw [show b * (a / b) - a = -(a % b) by linarith, abs_neg, abs_of_nonneg hr0]
        rw [habs]
        exact ⟨by linarith, fun _ => h3, le_refl _, by linarith⟩
      · rw [if_neg h1, if_neg h2, if_neg h3]
        have habs : |b * (a / b + 1) - a| = b - a % b := by
          rw [show b * (a / b + 1) - a = b - a % b by linarith, abs_of_nonneg (by linarith)]
        rw [habs]
        exact ⟨by linarith, fun _ => by omega, by linarith, le_refl _⟩

/-- C3 (counterexample): the claim that `set_list` computes the bar width
as `floor((width - SIDE_PAD) / count)` fails for the program's actual
window width 1400 and a dataset of 7 entries: the code's `round` gives
186 while the spec's floor gives 185. -/
theorem C3_floor_counterexample :
    block_width 1400 7 ≠ specBlockWidth 1400 7 ∧
    block_width 1400 7 = 186 ∧ specBlockWidth 1400 7 = 185 := by
  refine ⟨?_, by decide, by decide⟩
  decide

/-- C3 (amended): `set_list` computes the bar width as the integer nearest
to `(width - SIDE_PAD) / count` with ties resolved to an even value
(Python `round`), hence it equals the spec's floor or floor + 1. -/
theorem C3_block_width_round (w : Int) (n : Nat) (hn : 0 < n) :
    2 * |(n : Int) * block_width w n - (w - SIDE_PAD)| ≤ (n : Int) ∧
    (2 * |(n : Int) * block_width w n - (w - SIDE_PAD)| = (n : Int) →
      block_width w n % 2 = 0) ∧
    specBlockWidth w n ≤ block_width w n ∧
    block_width w n ≤ specBlockWidth w n + 1 := by
  have hb : (0 : Int) < (n : Int) := by exact_mod_cast hn
  exact roundHalfEven_spec (w - SIDE_PAD) (n : Int) hb

/-- Witness for the amended C3 at the program's window width 1400 and a
7-entry dataset. -/
theorem C3_block_width_round_witness :
    2 * |((7 : Nat) : Int) * block_width 1400 7 - (1400 - SIDE_PAD)| ≤ ((7 : Nat) : Int) ∧
    (2 * |((7 : Nat) : Int) * block_width 1400 7 - (1400 - SIDE_PAD)| = ((7 : Nat) : Int) →
      block_width 1400 7 % 2 = 0) ∧
    specBlockWidth 1400 7 ≤ block_width 1400 7 ∧
    block_width 1400 7 ≤ specBlockWidth 1400 7 + 1 :=
  C3_block_width_round 1400 7 (by decide)

theorem foldl_min_le_init :
    ∀ (es : List Entry) (init : Int), es.foldl (fun m x => min m x.2) init ≤ init := by
  intro es
  induction es with
  | nil => intro init; exact le_refl _
  | cons e es ih =>
    intro init
    exact le_trans (ih (min init e.2)) (min_le_left _ _)

theorem foldl_min_le_mem :
    ∀ (es : List Entry) (init : Int), ∀ x ∈ es, es.foldl (fun m x => min m x.2) init ≤ x.2 := by
  intro es
  induction es with
  | nil => intro init x hx; simp at hx
  | cons e es ih =>
    intro init x hx
    rw [List.mem_cons] at hx
    rcases hx with rfl | hx
    · exact le_trans (foldl_min_le_init es (min init x.2)) (min_le_right _ _)
    · exact ih (min init e.2) x hx

theorem foldl_max_init_le :
    ∀ (es : List Entry) (init : Int), init ≤ es.foldl (fun m x => max m x.2) init := by
  intro es
  induction es with
  | nil => intro init; exact le_refl _
  | cons e es ih =>
    intro init
    exact le_trans (le_max_left _ _) (ih (max init e.2))

theorem foldl_max_mem_le :
    ∀ (es : List Entry) (init : Int), ∀ x ∈ es, x.2 ≤ es.foldl (fun m x => max m x.2) init := by
  intro es
  induction es with
  | nil => intro init x hx; simp at hx
  | cons e es ih =>
    intro init x hx
    rw [List.mem_cons] at hx
    rcases hx with rfl | hx
    · exact le_trans (le_max_right _ _) (foldl_max_init_le es (max init x.2))
    · exact ih (max init e.2) x hx

theorem minVal_le {l : List Entry} : ∀ e ∈ l, minVal l ≤ e.2 := by
  intro e he
  match l with
  | [] => simp at he
  | a :: es =>
    rw [List.mem_cons] at he
    rcases he with rfl | he
    · exact foldl_min_le_init es e.2
    · exact foldl_min_le_mem es a.2 e he

theorem le_maxVal {l : List Entry} : ∀ e ∈ l, e.2 ≤ maxVal l := by
  intro e he
  match l with
  | [] => simp at he
  | a :: es =>
    rw [List.mem_cons] at he
    rcases he with rfl | he
    · exact foldl_max_init_le es e.2
    · exact foldl_max_mem_le es a.2 e he

theorem one_le_heightDivisor (l : List Entry) : 1 ≤ heightDivisor l :=
  le_max_left _ _

/-- C4: for every non-empty dataset, `set_list` at the program's window
height 1000 never divides by zero (the divisor is at least 1), the derived
`block_height` is non-negative, and in the degenerate case `max == min`
the divisor is coerced to 1 so `block_height` is the fixed positive value
`1000 - TOP_PAD - BOTTOM_PAD = 700` and every bar is drawn with the same
non-zero height `BOTTOM_PAD = 150`. -/
theorem C4_zero_range_safe (l : List Entry) (hl : l ≠ []) :
    1 ≤ heightDivisor l ∧
    0 ≤ block_height 1000 l ∧
    (maxVal l = minVal l →
      block_height 1000 l = 700 ∧ 0 < block_height 1000 l ∧
      (∀ e ∈ l, barHeight 1000 l e = BOTTOM_PAD) ∧ (0 : Int) < BOTTOM_PAD) := by
  refine ⟨one_le_heightDivisor l, ?_, ?_⟩
  · apply Int.ediv_nonneg
    · norm_num [TOP_PAD, BOTTOM_PAD]
    · linarith [one_le_heightDivisor l]
  · intro hmm
    have hdiv : heightDivisor l = 1 := by
      simp [heightDivisor, hmm]
    have hbh : block_height 1000 l = 700 := by
      rw [block_height, hdiv]
      norm_num [TOP_PAD, BOTTOM_PAD]
    refine ⟨hbh, by rw [hbh]; norm_num, ?_, by norm_num [BOTTOM_PAD]⟩
    intro e he
    have h1 : minVal l ≤ e.2 := minVal_le e he
    have h2 : e.2 ≤ maxVal l := le_maxVal e he
    have h3 : e.2 = minVal l := by omega
    rw [barHeight, barY, h3]
    ring

/-- Witness for C4 on the one-entry dataset `[("a", 5)]` (zero value
range). -/
theorem C4_zero_range_safe_witness :
    1 ≤ heightDivisor [(("a", 5) : Entry)] ∧
    0 ≤ block_height 1000 [(("a", 5) : Entry)] ∧
    (maxVal [(("a", 5) : Entry)] = minVal [(("a", 5) : Entry)] →
      block_height 1000 [(("a", 5) : Entry)] = 700 ∧
      0 < block_height 1000 [(("a", 5) : Entry)] ∧
      (∀ e ∈ [(("a", 5) : Entry)],
        barHeight 1000 [(("a", 5) : Entry)] e = BOTTOM_PAD) ∧ (0 : Int) < BOTTOM_PAD) :=
  C4_zero_range_safe [("a", 5)] (by simp)

/-! ### API adapter: `fetch_players_by_goals` (lines 113-159)

The loop requests pages 1, 2, ... until a non-200 status or an empty
`response` list; for each player of each page it sums
`stats["goals"]["total"] or 0` and `stats["games"]["appearences"] or 0`
over all competition-statistics entries, keeps `(name, total_goals)` only
when both sums are strictly positive, and finally returns
`goal_list[:20]`.  A run of the loop is modelled by the list of responses
the API would return for pages 1, 2, ...; running past the end of that
list behaves like an empty page. -/

/-- One competition-statistics entry of a player: `goals.total` and
`games.appearences` as returned by the API (`none` models JSON null, for
which `x or 0` yields 0). -/
structure StatEntry where
  goalsTotal : Option Int
  appearences : Option Int
  deriving Repr, DecidableEq

/-- One player record of a page: name plus statistics entries. -/
structure PlayerRec where
  name : String
  statistics : List StatEntry
  deriving Repr, DecidableEq

/-- `sum(stats["goals"]["total"] or 0 for stats in player["statistics"])`. -/
def totalGoals (p : PlayerRec) : Int :=
  (p.statistics.map (fun s => s.goalsTotal.getD 0)).sum

/-- `sum(stats["games"]["appearences"] or 0 for stats in player["statistics"])`. -/
def totalAppearances (p : PlayerRec) : Int :=
  (p.statistics.map (fun s => s.appearences.getD 0)).sum

/-- The API's answer for one page: a non-200 status, or a 200 status with
the parsed `response` list of players. -/
inductive ApiResp where
  | err (status : Nat)
  | ok (players : List PlayerRec)
  deriving Repr, DecidableEq

/-- The entries appended to `goal_list` while processing one page:
`(name, total_goals)` for every player with positive summed goals and
positive summed appearances, in page order. -/
def qualifying (ps : List PlayerRec) : List Entry :=
  ps.filterMap (fun p =>
    if 0 < totalGoals p ∧ 0 < totalAppearances p then some (p.name, totalGoals p) else none)

/-- The pagination loop: stops at a non-200 status or an empty page,
otherwise collects the qualifying entries of the page and continues. -/
def fetchPages : List ApiResp → List Entry
  | [] => []
  | .err _ :: _ => []
  | .ok ps :: rest => if ps.isEmpty then [] else qualifying ps ++ fetchPages rest

/-- `fetch_players_by_goals`: the collected list truncated to
`goal_list[:20]`. -/
def fetch_players_by_goals (resps : List ApiResp) : List Entry :=
  (fetchPages resps).take 20

/-- A demonstration input for C6: a single page holding twenty qualifying
1-goal players followed by one qualifying 100-goal player. -/
def demoResps : List ApiResp :=
  [.ok (List.replicate 20 ⟨"a", [⟨some 1, some 10⟩]⟩ ++ [⟨"big", [⟨some 100, some 10⟩]⟩])]

theorem fetchPages_mem (resps : List ApiResp) :
    ∀ e ∈ fetchPages resps,
      ∃ p : PlayerRec, e = (p.name, totalGoals p) ∧
        0 < totalGoals p ∧ 0 < totalAppearances p := by
  induction resps with
  | nil => intro e he; simp [fetchPages] at he
  | cons r rest ih =>
    intro e he
    match r with
    | .err s => simp [fetchPages] at he
    | .ok ps =>
      rw [fetchPages] at he
      by_cases hps : ps.isEmpty
      · rw [if_pos hps] at he; simp at he
      · rw [if_neg hps, List.mem_append] at he
        rcases he with he | he
        · rw [qualifying, List.mem_filterMap] at he
          obtain ⟨p, _, hp⟩ := he
          by_cases hcond : 0 < totalGoals p ∧ 0 < totalAppearances p
          · rw [if_pos hcond] at hp
            exact ⟨p, by injection hp with h; rw [h], hcond.1, hcond.2⟩
          · rw [if_neg hcond] at hp; cases hp
        · exact ih e he

/-- C6: for every sequence of API pages the adapter returns at most 20
entries; every returned entry stems from a player whose summed goals and
summed appearances (missing values counted as 0) are both strictly
positive; the result is exactly the first 20 qualifying entries in
encounter order — as `demoResps` shows, a later 100-goal player is dropped
in favour of twenty earlier 1-goal players, so the result is not the top
20 by goal count. -/
theorem C6_fetch_first20 (resps : List ApiResp) :
    (fetch_players_by_goals resps).length ≤ 20 ∧
    (∀ e ∈ fetch_players_by_goals resps,
      ∃ p : PlayerRec, e = (p.name, totalGoals p) ∧
        0 < totalGoals p ∧ 0 < totalAppearances p) ∧
    fetchPages resps = fetch_players_by_goals resps ++ (fetchPages resps).drop 20 ∧
    ((("big", (100 : Int)) : Entry) ∈ fetchPages demoResps ∧
      (("big", (100 : Int)) : Entry) ∉ fetch_players_by_goals demoResps ∧
      ∀ e ∈ fetch_players_by_goals demoResps, e.2 = 1) := by
  refine ⟨List.length_take_le 20 _, ?_, (List.take_append_drop 20 _).symm, ?_⟩
  · intro e he
    exact fetchPages_mem resps e (List.mem_of_mem_take he)
  · refine ⟨by decide, by decide, by decide⟩

/-- Witness for C6: the first demo entry really is backed by a qualifying
player record. -/
theorem C6_fetch_first20_witness :
    ∃ p : PlayerRec, (("a", (1 : Int)) : Entry) = (p.name, totalGoals p) ∧
      0 < totalGoals p ∧ 0 < totalAppearances p :=
  (C6_fetch_first20 demoResps).2.1 ("a", 1) (by decide)

/-! ### `search_team` (lines 80-100)

One GET request; any non-200 status is printed and turned into `[]`, a 200
response with an empty or missing `response` field is turned into `[]`,
otherwise the team list is returned.  The stream of available responses is
modelled as a list of which only the head is ever consumed (exactly one
request, no retry). -/

/-- The payload of one team record (opaque for this development). -/
abbrev Team := String

/-- One HTTP response: status code and the parsed body's `response` field
(`none` when missing; `data.get("response", [])` then yields `[]`). -/
structure HttpResp where
  status : Nat
  response : Option (List Team)
  deriving Repr, DecidableEq

/-- `search_team`, consuming only the first available response. -/
def search_team : List HttpResp → List Team
  | [] => []
  | r :: _ =>
    if r.status ≠ 200 then []
    else
      let teams := r.response.getD []
      if teams.isEmpty then [] else teams

/-- C8: `search_team` returns `[]` for every non-200 response and for
every 200 response with an empty or missing `response` field (it never
raises: it is total and merely returns the empty list), and its result
depends only on the first response of the stream — exactly one lookup
request, no retry. -/
theorem C8_search_team_non_success (r : HttpResp) (rest : List HttpResp) :
    (r.status ≠ 200 → search_team (r :: rest) = []) ∧
    (r.status = 200 → r.response.getD [] = [] → search_team (r :: rest) = []) ∧
    (∀ rest' : List HttpResp, search_team (r :: rest) = search_team (r :: rest')) := by
  refine ⟨?_, ?_, fun rest' => rfl⟩
  · intro h
    simp [search_team, h]
  · intro h200 hempty
    simp [search_team, h200, hempty]

/-- Witness for C8: a 404 response yields the empty list. -/
theorem C8_search_team_non_success_witness :
    search_team [⟨404, none⟩] = [] :=
  (C8_search_team_non_success ⟨404, none⟩ []).1 (by decide)

/-! ### Event loop key handling (`main`, lines 401-425)

```
if event.key == pygame.K_r:
    raw_data = ...; draw_info.set_list(raw_data); sorting = False
elif event.key == pygame.K_SPACE and not sorting:
    sorting = True
    sorting_algorithm_generator = sorting_algorithm(draw_info, ascending)
elif event.key == pygame.K_a and not sorting:  ascending = True
elif event.key == pygame.K_d and not sorting:  ascending = False
elif event.key == pygame.K_i and not sorting:  sorting_algorithm = insertion_sort; ...
elif event.key == pygame.K_b and not sorting:  sorting_algorithm = bubble_sort; ...
```
-/

/-- The selectable sorting algorithm. -/
inductive Algo where
  | bubble
  | insertion
  deriving Repr, DecidableEq

/-- The key presses handled by the loop. -/
inductive Key where
  | keyR
  | keySpace
  | keyA
  | keyD
  | keyI
  | keyB
  deriving Repr, DecidableEq

/-- A freshly instantiated step sequence
(`sorting_algorithm(draw_info, ascending)`): which algorithm and direction
it was created with and the dataset it captured. -/
structure GenInst where
  algo : Algo
  ascending : Bool
  data : List Entry
  deriving Repr, DecidableEq

/-- The controller state of the event loop: the `sorting` flag (Sorting
vs Idle), the direction, the selected algorithm, the dataset held by
`draw_info`, and the current generator reference. -/
structure LoopState where
  sorting : Bool
  ascending : Bool
  algo : Algo
  lst : List Entry
  gen : Option GenInst
  deriving Repr, DecidableEq

/-- One `KEYDOWN` event of the loop body; `reloadData` is the dataset a
reload (`K_r`) would install. -/
def handleKey (reloadData : List Entry) (s : LoopState) : Key → LoopState
  | .keyR => { s with lst := reloadData, sorting := false }
  | .keySpace =>
    if s.sorting = false then
      { s with sorting := true, gen := some ⟨s.algo, s.ascending, s.lst⟩ }
    else s
  | .keyA => if s.sorting = false then { s with ascending := true } else s
  | .keyD => if s.sorting = false then { s with ascending := false } else s
  | .keyI => if s.sorting = false then { s with algo := .insertion } else s
  | .keyB => if s.sorting = false then { s with algo := .bubble } else s

/-- C9: while `sorting` is true the direction keys, the algorithm keys and
the start key leave the state completely unchanged (in particular no new
step sequence is created), while the reload key is honoured in every state
and always forces Idle (`sorting = false`) with the rebuilt dataset
installed. -/
theorem C9_sorting_keys_ignored (reloadData : List Entry) (s : LoopState) :
    (s.sorting = true →
      handleKey reloadData s .keyA = s ∧
      handleKey reloadData s .keyD = s ∧
      handleKey reloadData s .keyI = s ∧
      handleKey reloadData s .keyB = s ∧
      handleKey reloadData s .keySpace = s) ∧
    ((handleKey reloadData s .keyR).sorting = false ∧
     (handleKey reloadData s .keyR).lst = reloadData) := by
  constructor
  · intro h
    simp [handleKey, h]
  · exact ⟨rfl, rfl⟩

/-- Witness for C9 in a concrete Sorting state. -/
theorem C9_sorting_keys_ignored_witness :
    handleKey [] ⟨true, true, Algo.bubble, [], none⟩ Key.keyA =
      ⟨true, true, Algo.bubble, [], none⟩ ∧
    (handleKey [(("a", 1) : Entry)] ⟨true, true, Algo.bubble, [], none⟩ Key.keyR).sorting
      = false :=
  ⟨((C9_sorting_keys_ignored [] ⟨true, true, Algo.bubble, [], none⟩).1 rfl).1,
   (C9_sorting_keys_ignored [("a", 1)] ⟨true, true, Algo.bubble, [], none⟩).2.1⟩

end FSV
